import Mathlib

/-!
Verification of the UniAZ position-dependent substitution cipher.

Characters are modelled as natural numbers (Unicode code points).  A Rust
panic is modelled as `none`; machine integers are modelled as `Nat`
(every intermediate in the source stays far below `2^64` for the alphabet
sizes representable in the 256-entry lookup tables, so no wrap occurs).
-/

set_option linter.all false

namespace UniAZ

/-- Swap the entries at positions `i` and `j` of a list (models `Vec::swap`;
the fallback branch is only reached for out-of-range indices). -/
def listSwap (l : List Nat) (i j : Nat) : List Nat :=
  match l.get? i, l.get? j with
  | some a, some b => (l.set i b).set j a
  | _, _ => l

/-- Last index at which `c` occurs in `l`, if any.  Used to characterise the
"later writes win" lookup tables built by the source. -/
def lastIdx : List Nat → Nat → Option Nat
  | [], _ => none
  | a :: as, c =>
    match lastIdx as c with
    | some i => some (i + 1)
    | none => if a = c then some 0 else none

/-- The `val_map_array` of `Cipher::new`: every alphabet entry `alphabet[i]`
writes value `i` at key `alphabet[i]`, over a table initialised with the
sentinel `u64::MAX` (modelled as `none`).  Later writes overwrite earlier
ones. -/
def valMapFun (alphabet : List Nat) : Nat → Option Nat :=
  (alphabet.enumFrom 0).foldl (fun f p => Function.update f p.2 (some p.1)) (fun _ => none)

/-- `Cipher::new`: panics (`none`) on an empty alphabet or on a symbol
outside the 256-entry table; otherwise stores the alphabet. -/
def cipher_new (pattern : List Nat) : Option (List Nat) :=
  if pattern.length = 0 then none
  else if pattern.all (fun c => c < 256) then some pattern
  else none

/-- `Cipher::char_to_val`: panics (`none`) for a code point at or above 256
and for a symbol whose table entry is still the sentinel. -/
def char_to_val (alphabet : List Nat) (c : Nat) : Option Nat :=
  if 256 ≤ c then none
  else valMapFun alphabet c

/-- The enumerated loop body of `Cipher::get_seed_mod`: runs over the digit
list carrying the current absolute index, the remainder and the `is_empty`
flag, skipping index `skip`. -/
def seedLoop (alphabet : List Nat) (skip m : Nat) :
    List Nat → Nat → Nat → Bool → Option (Nat × Bool)
  | [], _, r, e => some (r, e)
  | c :: cs, i, r, e =>
    if i = skip then seedLoop alphabet skip m cs (i + 1) r e
    else
      match char_to_val alphabet c with
      | none => none
      | some v => seedLoop alphabet skip m cs (i + 1) ((r * alphabet.length + v) % m) false

/-- `Cipher::get_seed_mod`. -/
def get_seed_mod (alphabet digits : List Nat) (skip m : Nat) : Option Nat :=
  if m = 0 then some 0
  else
    match seedLoop alphabet skip m digits 0 0 true with
    | none => none
    | some (r, e) => some (if e then 0 else r)

/-- The Fisher–Yates loop of `Cipher::disorder`: iteration `fuel + 1` is the
source's loop index `i = fuel + 1`, whose window size is `i + 1 = fuel + 2`. -/
def disorderAux (alphabet digits : List Nat) (skip : Nat) :
    Nat → List Nat → Option (List Nat)
  | 0, obj => some obj
  | fuel + 1, obj =>
    match get_seed_mod alphabet digits skip (fuel + 2) with
    | none => none
    | some j => disorderAux alphabet digits skip fuel (listSwap obj (fuel + 1) j)

/-- `Cipher::disorder` (the permutation component). -/
def disorder (alphabet digits : List Nat) (skip : Nat) : Option (List Nat) :=
  disorderAux alphabet digits skip (alphabet.length - 1) alphabet

/-- The `pos_map` component of `Cipher::disorder`: a 256-entry table
initialised with the sentinel 255, then `pos_map[c] = idx as u8` for every
entry of the permutation, later writes overwriting earlier ones. -/
def posMapFun (perm : List Nat) : Nat → Nat :=
  (perm.enumFrom 0).foldl (fun f p => Function.update f p.2 (p.1 % 256)) (fun _ => 255)

/-- The `pos_map` as rebuilt by `Cipher::decrypt_once`: the forward table is
overwritten with the entries of the reversed permutation. -/
def decPosMapFun (perm : List Nat) : Nat → Nat :=
  (perm.reverse.enumFrom 0).foldl (fun f p => Function.update f p.2 (p.1 % 256)) (posMapFun perm)

/-- The body of the `Cipher::encrypt_once` loop at position `i`. -/
def encStep (alphabet l : List Nat) (i : Nat) : Option (List Nat) :=
  match disorder alphabet l i with
  | none => none
  | some perm =>
    match get_seed_mod alphabet l i alphabet.length with
    | none => none
    | some s =>
      let c := l.getD i 0
      if 256 ≤ c then none
      else
        let pos := posMapFun perm c
        if pos = 255 then some l
        else some (l.set i (perm.getD ((pos + (s + i * i + 1)) % alphabet.length) 0))

/-- `Cipher::encrypt_once` positions `i, i+1, …, i+fuel-1`. -/
def encFrom (alphabet : List Nat) (i : Nat) : Nat → List Nat → Option (List Nat)
  | 0, l => some l
  | fuel + 1, l =>
    match encStep alphabet l i with
    | none => none
    | some l₁ => encFrom alphabet (i + 1) fuel l₁

/-- `Cipher::encrypt_once`. -/
def encrypt_once (alphabet input : List Nat) : Option (List Nat) :=
  encFrom alphabet 0 input.length input

/-- The body of the `Cipher::decrypt_once` loop at position `i`. -/
def decStep (alphabet l : List Nat) (i : Nat) : Option (List Nat) :=
  match disorder alphabet l i with
  | none => none
  | some perm =>
    match get_seed_mod alphabet l i alphabet.length with
    | none => none
    | some s =>
      let c := l.getD i 0
      if 256 ≤ c then none
      else
        let pos := decPosMapFun perm c
        if pos = 255 then some l
        else some (l.set i (perm.reverse.getD ((pos + (s + i * i + 1)) % alphabet.length) 0))

/-- `Cipher::decrypt_once` positions `fuel-1, fuel-2, …, 0`. -/
def decFrom (alphabet : List Nat) : Nat → List Nat → Option (List Nat)
  | 0, l => some l
  | fuel + 1, l =>
    match decStep alphabet l fuel with
    | none => none
    | some l₁ => decFrom alphabet fuel l₁

/-- `Cipher::decrypt_once`. -/
def decrypt_once (alphabet input : List Nat) : Option (List Nat) :=
  decFrom alphabet input.length input

/-- `Cipher::encrypt`: `iteration` applications of `encrypt_once`. -/
def encrypt (alphabet : List Nat) (input : List Nat) : Nat → Option (List Nat)
  | 0 => some input
  | n + 1 =>
    match encrypt_once alphabet input with
    | none => none
    | some r => encrypt alphabet r n

/-- `Cipher::decrypt`: `iteration` applications of `decrypt_once`. -/
def decrypt (alphabet : List Nat) (input : List Nat) : Nat → Option (List Nat)
  | 0 => some input
  | n + 1 =>
    match decrypt_once alphabet input with
    | none => none
    | some r => decrypt alphabet r n

/-- Spec-side definition (for the refinement claim on `get_seed_mod`):
Horner's rule `remainder = (remainder*radix + value) mod modulus` folded over
a list of digit values, starting from remainder 0. -/
def seedModSpec (radix m : Nat) (vals : List Nat) : Nat :=
  vals.foldl (fun rem v => (rem * radix + v) % m) 0

/-- The default alphabet `"abcdefghijklmnopqrstuvwxyz"` of `UniAz::new`,
as code points. -/
def AZ : List Nat := (List.range 26).map (fun k => k + 97)

/-- Little-endian base-26 digit expansion of a natural number. -/
def digitsLE (n : Nat) : List Nat :=
  if h : n = 0 then [] else n % 26 :: digitsLE (n / 26)
decreasing_by exact Nat.div_lt_self (Nat.pos_of_ne_zero h) (by omega)

/-- Modelled from the spec: the external Codec collaborator's
`toBase(number, alphabet)` for the default a-z alphabet — the base-26
positional numeral of a code point written with symbols `a..z`,
most-significant digit first (the `anybase::Converter` used by
`UniAz::encrypt` is not part of this repository's sources). -/
def toBaseAZ (cp : Nat) : List Nat :=
  if cp = 0 then [97] else ((digitsLE cp).reverse).map (fun d => d + 97)

/-- Modelled from the spec: the external Codec collaborator's
`fromBase(string, alphabet) -> number | fails on malformed input` for the
a-z alphabet, composed with the decimal `u32` parse of `UniAz::decrypt`
up to the overflow check (kept separate there); fails on an empty or
non-a-z input. -/
def fromBaseAZ (s : List Nat) : Option Nat :=
  if s.isEmpty then none
  else if s.all (fun c => 97 ≤ c && c ≤ 122) then
    some (s.foldl (fun a c => a * 26 + (c - 97)) 0)
  else none

/-- Spec-side helper: the value of a little-endian digit list. -/
def valLE : List Nat → Nat
  | [] => 0
  | d :: ds => d + 26 * valLE ds

/-- The error type `DecryptError` of `lib.rs`. -/
inductive DecryptError
  | InvalidCipherText
  | InvalidToken
  | InvalidCodepoint
deriving DecidableEq, Repr

/-- `char::from_u32` succeeds exactly on Unicode scalar values. -/
def isScalar (n : Nat) : Bool :=
  n < 55296 || (57344 ≤ n && n ≤ 1114111)

/-- `UniAz::encrypt`: code point → decimal → base-26 a-z numeral (Codec) →
two forward cipher passes. -/
def uniaz_encrypt (plain : Nat) : Option (List Nat) :=
  encrypt AZ (toBaseAZ plain) 2

/-- `UniAz::decrypt`: reject non-`a-z` input (`InvalidCipherText`), run two
backward cipher passes, decode the numeral (`InvalidToken` on failure or on
`u32` overflow), reject non-scalar values (`InvalidCodepoint`).  The outer
`none` models a panic. -/
def uniaz_decrypt (s : List Nat) : Option (Except DecryptError Nat) :=
  if s.all (fun c => 97 ≤ c && c ≤ 122) then
    match decrypt AZ s 2 with
    | none => none
    | some d =>
      match fromBaseAZ d with
      | none => some (Except.error DecryptError.InvalidToken)
      | some n =>
        if n < 4294967296 then
          if isScalar n then some (Except.ok n)
          else some (Except.error DecryptError.InvalidCodepoint)
        else some (Except.error DecryptError.InvalidToken)
  else some (Except.error DecryptError.InvalidCipherText)

/-! ### Basic lemmas about the lookup tables and the swap -/

lemma cons_getElem_set_perm (xs : List Nat) :
    ∀ (k : Nat) (h : k < xs.length) (x : Nat),
      List.Perm (xs[k] :: xs.set k x) (x :: xs) := by
  induction xs with
  | nil => intro k h x; simp at h
  | cons y ys ih =>
    intro k h x
    cases k with
    | zero => simpa using List.Perm.swap x y ys
    | succ k =>
      have hk : k < ys.length := by simpa using h
      have h1 : List.Perm (ys[k] :: y :: ys.set k x) (y :: ys[k] :: ys.set k x) :=
        List.Perm.swap y (ys[k]) (ys.set k x)
      have h2 : List.Perm (y :: ys[k] :: ys.set k x) (y :: (x :: ys)) :=
        List.Perm.cons y (ih k hk x)
      have h3 : List.Perm (y :: x :: ys) (x :: y :: ys) := List.Perm.swap x y ys
      simpa using (h1.trans h2).trans h3

lemma set_getElem_self (l : List Nat) (i : Nat) (h : i < l.length) :
    l.set i l[i] = l := by
  apply List.ext_getElem?
  intro n
  rw [List.getElem?_set]
  split
  · next hin =>
    subst hin
    simp [h, List.getElem?_eq_getElem h]
  · rfl

lemma listSwap_perm (l : List Nat) (i j : Nat) : List.Perm (listSwap l i j) l := by
  unfold listSwap
  cases hi : l.get? i with
  | none => exact List.Perm.refl l
  | some a =>
  cases hj : l.get? j with
  | none => exact List.Perm.refl l
  | some b =>
  rw [List.get?_eq_getElem?, List.getElem?_eq_some] at hi hj
  obtain ⟨hil, ha⟩ := hi
  obtain ⟨hjl, hb⟩ := hj
  show List.Perm ((l.set i b).set j a) l
  by_cases hij : i = j
  · subst hij
    rw [List.set_set, ← ha, set_getElem_self l i hil]
  · have hjl' : j < (l.set i b).length := by simpa using hjl
    have h1 : (l.set i b)[j] = b := by
      rw [List.getElem_set_ne hij hjl', hb]
    have h2 := cons_getElem_set_perm (l.set i b) j hjl' a
    rw [h1] at h2
    have h3 := cons_getElem_set_perm l i hil b
    rw [ha] at h3
    exact (h2.trans h3).cons_inv

lemma listSwap_length (l : List Nat) (i j : Nat) :
    (listSwap l i j).length = l.length :=
  (listSwap_perm l i j).length_eq

lemma lastIdx_none_of_not_mem {l : List Nat} {c : Nat} (h : c ∉ l) :
    lastIdx l c = none := by
  induction l with
  | nil => rfl
  | cons a as ih =>
    have has : c ∉ as := fun hc => h (List.mem_cons_of_mem a hc)
    have hac : a ≠ c := fun hc => h (hc ▸ List.mem_cons_self a as)
    rw [lastIdx, ih has, if_neg hac]

lemma lastIdx_mem {l : List Nat} {c : Nat} (h : c ∈ l) :
    ∃ i, lastIdx l c = some i := by
  induction l with
  | nil => simp at h
  | cons a as ih =>
    rw [lastIdx]
    cases hl : lastIdx as c with
    | some k => exact ⟨k + 1, rfl⟩
    | none =>
      have hac : a = c := by
        rcases List.mem_cons.mp h with h1 | h2
        · exact h1.symm
        · obtain ⟨i, hi⟩ := ih h2
          rw [hi] at hl
          exact Option.noConfusion hl
      exact ⟨0, by rw [if_pos hac]⟩

lemma not_mem_of_lastIdx_none {l : List Nat} {c : Nat} (h : lastIdx l c = none) :
    c ∉ l := by
  intro hc
  obtain ⟨i, hi⟩ := lastIdx_mem hc
  rw [hi] at h
  exact Option.noConfusion h

lemma lastIdx_lt {l : List Nat} {c i : Nat} (h : lastIdx l c = some i) :
    i < l.length := by
  induction l generalizing i with
  | nil => exact Option.noConfusion h
  | cons a as ih =>
    rw [lastIdx] at h
    cases hl : lastIdx as c with
    | some k =>
      rw [hl] at h
      simp only [Option.some.injEq] at h
      have := ih hl
      simp only [List.length_cons]
      omega
    | none =>
      rw [hl] at h
      by_cases hac : a = c
      · rw [if_pos hac] at h
        simp only [Option.some.injEq] at h
        simp only [List.length_cons]
        omega
      · rw [if_neg hac] at h
        exact Option.noConfusion h

lemma lastIdx_getElem {l : List Nat} {c i : Nat} (h : lastIdx l c = some i) :
    l[i]? = some c := by
  induction l generalizing i with
  | nil => exact Option.noConfusion h
  | cons a as ih =>
    rw [lastIdx] at h
    cases hl : lastIdx as c with
    | some k =>
      rw [hl] at h
      simp only [Option.some.injEq] at h
      subst h
      simpa using ih hl
    | none =>
      rw [hl] at h
      by_cases hac : a = c
      · rw [if_pos hac] at h
        simp only [Option.some.injEq] at h
        subst h
        simp [hac]
      · rw [if_neg hac] at h
        exact Option.noConfusion h

lemma lastIdx_le {l : List Nat} {c i : Nat} (h : lastIdx l c = some i) :
    ∀ j, l[j]? = some c → j ≤ i := by
  induction l generalizing i with
  | nil => intro j hj; simp at hj
  | cons a as ih =>
    intro j hj
    rw [lastIdx] at h
    cases hl : lastIdx as c with
    | some k =>
      rw [hl] at h
      simp only [Option.some.injEq] at h
      subst h
      cases j with
      | zero => omega
      | succ j =>
        have hj' : as[j]? = some c := by simpa using hj
        have := ih hl j hj'
        omega
    | none =>
      rw [hl] at h
      by_cases hac : a = c
      · rw [if_pos hac] at h
        simp only [Option.some.injEq] at h
        subst h
        cases j with
        | zero => omega
        | succ j =>
          have hj' : as[j]? = some c := by simpa using hj
          obtain ⟨hjl, hje⟩ := List.getElem?_eq_some.mp hj'
          have : c ∈ as := hje ▸ List.getElem_mem hjl
          exact absurd this (not_mem_of_lastIdx_none hl)
      · rw [if_neg hac] at h
        exact Option.noConfusion h

lemma lastIdx_nodup {l : List Nat} {c : Nat} (hnd : l.Nodup) (hc : c ∈ l) :
    lastIdx l c = some (l.indexOf c) := by
  obtain ⟨i, hi⟩ := lastIdx_mem hc
  have hlt := lastIdx_lt hi
  have hget := lastIdx_getElem hi
  have hgetl : l[i] = c := by
    obtain ⟨h1, h2⟩ := List.getElem?_eq_some.mp hget
    exact h2
  have hidx : l.indexOf c = i := by
    have := List.get_indexOf hnd ⟨i, hlt⟩
    simpa [List.get_eq_getElem, hgetl] using this
  rw [hi, hidx]

lemma foldl_update_enumFrom {β : Type} (v : Nat → β) (c : Nat) :
    ∀ (l : List Nat) (n : Nat) (f : Nat → β),
      ((l.enumFrom n).foldl (fun g p => Function.update g p.2 (v p.1)) f) c =
        (match lastIdx l c with
         | some i => v (n + i)
         | none => f c) := by
  intro l
  induction l with
  | nil => intro n f; rfl
  | cons a as ih =>
    intro n f
    rw [List.enumFrom_cons, List.foldl_cons, ih]
    rw [lastIdx]
    cases hl : lastIdx as c with
    | some i =>
      show v (n + 1 + i) = v (n + (i + 1))
      congr 1
      omega
    | none =>
      by_cases hac : a = c
      · subst hac
        rw [if_pos rfl]
        simp [Function.update_apply]
      · rw [if_neg hac]
        show Function.update f a (v n) c = f c
        rw [Function.update_apply, if_neg (fun hh : c = a => hac hh.symm)]

lemma valMapFun_eq (A : List Nat) (c : Nat) :
    valMapFun A c = lastIdx A c := by
  have h := foldl_update_enumFrom (fun i => (some i : Option Nat)) c A 0 (fun _ => none)
  have h2 : (match lastIdx A c with
      | some i => (some (0 + i) : Option Nat)
      | none => none) = lastIdx A c := by
    cases hl : lastIdx A c <;> simp
  exact h.trans h2

lemma posMapFun_eq (perm : List Nat) (c : Nat) :
    posMapFun perm c =
      (match lastIdx perm c with
       | some i => i % 256
       | none => 255) := by
  have h := foldl_update_enumFrom (fun i => i % 256) c perm 0 (fun _ => 255)
  have h2 : (match lastIdx perm c with
      | some i => (0 + i) % 256
      | none => 255) =
      (match lastIdx perm c with
       | some i => i % 256
       | none => 255) := by
    cases hl : lastIdx perm c <;> simp
  exact h.trans h2

lemma decPosMapFun_eq (perm : List Nat) (c : Nat) :
    decPosMapFun perm c = posMapFun perm.reverse c := by
  have h := foldl_update_enumFrom (fun i => i % 256) c perm.reverse 0 (posMapFun perm)
  refine h.trans ?_
  rw [posMapFun_eq perm.reverse c]
  cases hl : lastIdx perm.reverse c with
  | some i => simp
  | none =>
    have hrev : c ∉ perm.reverse := not_mem_of_lastIdx_none hl
    have hnp : c ∉ perm := by simpa using hrev
    rw [posMapFun_eq, lastIdx_none_of_not_mem hnp]

lemma posMapFun_not_mem {perm : List Nat} {c : Nat} (h : c ∉ perm) :
    posMapFun perm c = 255 := by
  rw [posMapFun_eq, lastIdx_none_of_not_mem h]

lemma posMapFun_nodup {perm : List Nat} {c : Nat} (hnd : perm.Nodup)
    (hc : c ∈ perm) (hlen : perm.length ≤ 255) :
    posMapFun perm c = perm.indexOf c ∧ perm.indexOf c ≠ 255 := by
  have hidx : perm.indexOf c < perm.length := List.indexOf_lt_length.mpr hc
  rw [posMapFun_eq, lastIdx_nodup hnd hc]
  refine ⟨?_, by omega⟩
  show perm.indexOf c % 256 = perm.indexOf c
  exact Nat.mod_eq_of_lt (by omega)

lemma posMapFun_ne_sentinel {perm : List Nat} {c : Nat}
    (hc : c ∈ perm) (hlen : perm.length ≤ 255) :
    posMapFun perm c ≠ 255 := by
  obtain ⟨i, hi⟩ := lastIdx_mem hc
  have hlt := lastIdx_lt hi
  rw [posMapFun_eq, hi]
  show i % 256 ≠ 255
  have hmod : i % 256 = i := Nat.mod_eq_of_lt (by omega)
  omega

lemma char_to_val_none {A : List Nat} {c : Nat} (h : c ∉ A) :
    char_to_val A c = none := by
  unfold char_to_val
  split
  · rfl
  · rw [valMapFun_eq, lastIdx_none_of_not_mem h]

lemma char_to_val_mem {A : List Nat} {c : Nat} (hb : ∀ x ∈ A, x < 256)
    (hc : c ∈ A) : ∃ v, char_to_val A c = some v ∧ v < A.length := by
  obtain ⟨i, hi⟩ := lastIdx_mem hc
  refine ⟨i, ?_, lastIdx_lt hi⟩
  unfold char_to_val
  rw [if_neg (by have := hb c hc; omega), valMapFun_eq, hi]

lemma char_to_val_nodup {A : List Nat} {c : Nat} (hb : ∀ x ∈ A, x < 256)
    (hnd : A.Nodup) (hc : c ∈ A) :
    char_to_val A c = some (A.indexOf c) := by
  unfold char_to_val
  rw [if_neg (by have := hb c hc; omega), valMapFun_eq, lastIdx_nodup hnd hc]

/-! ### Lemmas about the seed loop and `get_seed_mod` -/

lemma seedLoop_congr (A : List Nat) (skip m : Nat) :
    ∀ (ds₁ ds₂ : List Nat) (i r : Nat) (e : Bool),
      ds₁.length = ds₂.length →
      (∀ j, i + j ≠ skip → ds₁[j]? = ds₂[j]?) →
      seedLoop A skip m ds₁ i r e = seedLoop A skip m ds₂ i r e := by
  intro ds₁
  induction ds₁ with
  | nil =>
    intro ds₂ i r e hlen _
    cases ds₂ with
    | nil => rfl
    | cons b bs => simp at hlen
  | cons a as ih =>
    intro ds₂ i r e hlen hagree
    cases ds₂ with
    | nil => simp at hlen
    | cons b bs =>
      have hlen' : as.length = bs.length := by simpa using hlen
      have htail : ∀ j, (i + 1) + j ≠ skip → as[j]? = bs[j]? := by
        intro j hj
        have := hagree (j + 1) (by omega)
        simpa using this
      by_cases hi : i = skip
      · rw [seedLoop, seedLoop, if_pos hi, if_pos hi]
        exact ih bs (i + 1) r e hlen' htail
      · have hab : a = b := by
          have := hagree 0 (by omega)
          simpa using this
        subst hab
        rw [seedLoop, seedLoop, if_neg hi, if_neg hi]
        cases hcv : char_to_val A a with
        | none => rfl
        | some v => exact ih bs (i + 1) _ false hlen' htail

lemma seedLoop_some {A : List Nat} {skip m : Nat} (hm : m ≠ 0)
    (hb : ∀ x ∈ A, x < 256) :
    ∀ (ds : List Nat) (i r : Nat) (e : Bool),
      (∀ j c, ds[j]? = some c → i + j ≠ skip → c ∈ A) →
      r < m →
      ∃ p, seedLoop A skip m ds i r e = some p ∧ p.1 < m := by
  intro ds
  induction ds with
  | nil => intro i r e _ hr; exact ⟨(r, e), rfl, hr⟩
  | cons a as ih =>
    intro i r e hvis hr
    rw [seedLoop]
    by_cases hi : i = skip
    · rw [if_pos hi]
      refine ih (i + 1) r e ?_ hr
      intro j c hj hne
      exact hvis (j + 1) c (by simpa using hj) (by omega)
    · rw [if_neg hi]
      have ha : a ∈ A := hvis 0 a (by simp) (by omega)
      obtain ⟨v, hv, _⟩ := char_to_val_mem hb ha
      rw [hv]
      refine ih (i + 1) _ false ?_ (Nat.mod_lt _ (Nat.pos_of_ne_zero hm))
      intro j c hj hne
      exact hvis (j + 1) c (by simpa using hj) (by omega)

lemma seedLoop_none (A : List Nat) (skip m : Nat) :
    ∀ (ds : List Nat) (i r : Nat) (e : Bool) (j c : Nat),
      ds[j]? = some c → i + j ≠ skip → char_to_val A c = none →
      seedLoop A skip m ds i r e = none := by
  intro ds
  induction ds with
  | nil => intro i r e j c hj _ _; simp at hj
  | cons a as ih =>
    intro i r e j c hj hne hcv
    rw [seedLoop]
    by_cases hi : i = skip
    · rw [if_pos hi]
      cases j with
      | zero => omega
      | succ j => exact ih (i + 1) r e j c (by simpa using hj) (by omega) hcv
    · rw [if_neg hi]
      cases j with
      | zero =>
        have hac : a = c := by simpa using hj
        subst hac
        rw [hcv]
      | succ j =>
        cases hcv2 : char_to_val A a with
        | none => rfl
        | some v => exact ih (i + 1) _ false j c (by simpa using hj) (by omega) hcv

lemma seedLoop_val_all {A : List Nat} {skip m : Nat}
    (hb : ∀ x ∈ A, x < 256) (hnd : A.Nodup) :
    ∀ (ds : List Nat) (i r : Nat) (e : Bool),
      skip < i → (∀ c ∈ ds, c ∈ A) →
      seedLoop A skip m ds i r e =
        some ((ds.map (fun c => A.indexOf c)).foldl
                (fun rem v => (rem * A.length + v) % m) r,
              e && ds.isEmpty) := by
  intro ds
  induction ds with
  | nil => intro i r e _ _; simp [seedLoop]
  | cons a as ih =>
    intro i r e hsk hwf
    rw [seedLoop, if_neg (by omega)]
    have ha : a ∈ A := hwf a (List.mem_cons_self a as)
    rw [char_to_val_nodup hb hnd ha]
    show seedLoop A skip m as (i + 1) ((r * A.length + A.indexOf a) % m) false = _
    rw [ih (i + 1) _ false (by omega) (fun c hc => hwf c (List.mem_cons_of_mem a hc))]
    simp

lemma seedLoop_val {A : List Nat} {skip m : Nat}
    (hb : ∀ x ∈ A, x < 256) (hnd : A.Nodup) :
    ∀ (ds : List Nat) (i r : Nat) (e : Bool),
      i ≤ skip → (∀ c ∈ ds, c ∈ A) →
      seedLoop A skip m ds i r e =
        some (((ds.eraseIdx (skip - i)).map (fun c => A.indexOf c)).foldl
                (fun rem v => (rem * A.length + v) % m) r,
              e && (ds.eraseIdx (skip - i)).isEmpty) := by
  intro ds
  induction ds with
  | nil => intro i r e _ _; simp [seedLoop]
  | cons a as ih =>
    intro i r e hsk hwf
    by_cases hi : i = skip
    · rw [seedLoop, if_pos hi]
      have hz : skip - i = 0 := by omega
      rw [hz, List.eraseIdx_cons_zero]
      exact seedLoop_val_all hb hnd as (i + 1) r e (by omega)
        (fun c hc => hwf c (List.mem_cons_of_mem a hc))
    · have hlt : i < skip := by omega
      rw [seedLoop, if_neg hi]
      have ha : a ∈ A := hwf a (List.mem_cons_self a as)
      rw [char_to_val_nodup hb hnd ha]
      show seedLoop A skip m as (i + 1) ((r * A.length + A.indexOf a) % m) false = _
      rw [ih (i + 1) _ false (by omega) (fun c hc => hwf c (List.mem_cons_of_mem a hc))]
      have hsucc : skip - i = (skip - (i + 1)) + 1 := by omega
      rw [hsucc, List.eraseIdx_cons_succ]
      simp

lemma get_seed_mod_some {A digits : List Nat} {skip m : Nat} (hm : m ≠ 0)
    (hb : ∀ x ∈ A, x < 256)
    (hvis : ∀ j c, digits[j]? = some c → j ≠ skip → c ∈ A) :
    ∃ s, get_seed_mod A digits skip m = some s ∧ s < m := by
  unfold get_seed_mod
  rw [if_neg hm]
  have hvis0 : ∀ j c, digits[j]? = some c → 0 + j ≠ skip → c ∈ A := by
    intro j c hj hne
    exact hvis j c hj (by omega)
  obtain ⟨⟨r, e⟩, hp, hlt⟩ :=
    seedLoop_some hm hb digits 0 0 true hvis0 (Nat.pos_of_ne_zero hm)
  rw [hp]
  refine ⟨if e then 0 else r, rfl, ?_⟩
  cases e with
  | true => simpa using Nat.pos_of_ne_zero hm
  | false => simpa using hlt

lemma wf_vis {A digits : List Nat} (hwf : ∀ c ∈ digits, c ∈ A) :
    ∀ (j : Nat) (c : Nat) (skip : Nat), digits[j]? = some c → j ≠ skip → c ∈ A := by
  intro j c _ hj _
  obtain ⟨h1, h2⟩ := List.getElem?_eq_some.mp hj
  exact hwf c (h2 ▸ List.getElem_mem h1)

lemma get_seed_mod_none {A digits : List Nat} {skip m j c : Nat} (hm : m ≠ 0)
    (hj : digits[j]? = some c) (hne : j ≠ skip)
    (hcv : char_to_val A c = none) :
    get_seed_mod A digits skip m = none := by
  unfold get_seed_mod
  rw [if_neg hm, seedLoop_none A skip m digits 0 0 true j c hj (by omega) hcv]

lemma get_seed_mod_set {A digits : List Nat} {skip m x : Nat} :
    get_seed_mod A (digits.set skip x) skip m = get_seed_mod A digits skip m := by
  by_cases hm : m = 0
  · unfold get_seed_mod
    rw [if_pos hm, if_pos hm]
  · unfold get_seed_mod
    rw [if_neg hm, if_neg hm,
      seedLoop_congr A skip m (digits.set skip x) digits 0 0 true (by simp) ?_]
    intro j hj
    rw [List.getElem?_set]
    rw [if_neg (by omega)]

lemma get_seed_mod_val {A digits : List Nat} {skip m : Nat} (hm : m ≠ 0)
    (hb : ∀ x ∈ A, x < 256) (hnd : A.Nodup) (hwf : ∀ c ∈ digits, c ∈ A) :
    get_seed_mod A digits skip m =
      some (seedModSpec A.length m
        ((digits.eraseIdx skip).map (fun c => A.indexOf c))) := by
  unfold get_seed_mod seedModSpec
  rw [if_neg hm, @seedLoop_val A skip m hb hnd digits 0 0 true (by omega) hwf]
  have hz : skip - 0 = skip := by omega
  rw [hz]
  cases he : digits.eraseIdx skip with
  | nil => simp
  | cons d ds => simp

/-! ### Lemmas about `disorder` -/

lemma disorderAux_perm {A digits : List Nat} {skip : Nat} :
    ∀ (fuel : Nat) (obj p : List Nat),
      disorderAux A digits skip fuel obj = some p → List.Perm p obj := by
  intro fuel
  induction fuel with
  | zero =>
    intro obj p h
    have : obj = p := by simpa [disorderAux] using h
    subst this
    exact List.Perm.refl _
  | succ fuel ih =>
    intro obj p h
    rw [disorderAux] at h
    cases hg : get_seed_mod A digits skip (fuel + 2) with
    | none => rw [hg] at h; exact Option.noConfusion h
    | some j =>
      rw [hg] at h
      exact (ih _ p h).trans (listSwap_perm obj (fuel + 1) j)

lemma disorderAux_some {A digits : List Nat} {skip : Nat}
    (hb : ∀ x ∈ A, x < 256)
    (hvis : ∀ j c, digits[j]? = some c → j ≠ skip → c ∈ A) :
    ∀ (fuel : Nat) (obj : List Nat),
      ∃ p, disorderAux A digits skip fuel obj = some p := by
  intro fuel
  induction fuel with
  | zero => intro obj; exact ⟨obj, rfl⟩
  | succ fuel ih =>
    intro obj
    obtain ⟨s, hs, _⟩ := get_seed_mod_some (m := fuel + 2) (by omega) hb hvis
    rw [disorderAux, hs]
    exact ih (listSwap obj (fuel + 1) s)

lemma disorder_some_perm {A digits : List Nat} {skip : Nat}
    (hb : ∀ x ∈ A, x < 256)
    (hvis : ∀ j c, digits[j]? = some c → j ≠ skip → c ∈ A) :
    ∃ p, disorder A digits skip = some p ∧ List.Perm p A := by
  obtain ⟨p, hp⟩ := disorderAux_some hb hvis (A.length - 1) A
  exact ⟨p, hp, disorderAux_perm _ _ _ hp⟩

lemma disorderAux_set {A digits : List Nat} {skip x : Nat} :
    ∀ (fuel : Nat) (obj : List Nat),
      disorderAux A (digits.set skip x) skip fuel obj =
        disorderAux A digits skip fuel obj := by
  intro fuel
  induction fuel with
  | zero => intro obj; rfl
  | succ fuel ih =>
    intro obj
    rw [disorderAux, disorderAux, get_seed_mod_set]
    cases h : get_seed_mod A digits skip (fuel + 2) with
    | none => rfl
    | some j => exact ih (listSwap obj (fuel + 1) j)

lemma disorder_set {A digits : List Nat} {skip x : Nat} :
    disorder A (digits.set skip x) skip = disorder A digits skip := by
  unfold disorder
  exact disorderAux_set (A.length - 1) A

/-! ### Per-position step lemmas -/

lemma getElem_indexOf {l : List Nat} {c : Nat} (h : l.indexOf c < l.length) :
    l[l.indexOf c] = c := by
  simpa [List.get_eq_getElem] using List.indexOf_get h

lemma indexOf_reverse {l : List Nat} (hnd : l.Nodup) {c : Nat} (hc : c ∈ l) :
    l.reverse.indexOf c = l.length - 1 - l.indexOf c := by
  have hidx : l.indexOf c < l.length := List.indexOf_lt_length.mpr hc
  have hk : l.length - 1 - l.indexOf c < l.reverse.length := by
    rw [List.length_reverse]
    omega
  have heq : l.length - 1 - (l.length - 1 - l.indexOf c) = l.indexOf c := by omega
  have hlt2 : l.length - 1 - (l.length - 1 - l.indexOf c) < l.length := by omega
  have hov : l[l.length - 1 - (l.length - 1 - l.indexOf c)]? = some c := by
    rw [heq, List.getElem?_eq_getElem hidx, getElem_indexOf hidx]
  have hrev : l.reverse[l.length - 1 - l.indexOf c] = c := by
    rw [List.getElem_reverse]
    have hsome := List.getElem?_eq_getElem hlt2
    rw [hov] at hsome
    exact ((Option.some.injEq _ _).mp hsome).symm
  have hndr : l.reverse.Nodup := List.nodup_reverse.mpr hnd
  have := List.get_indexOf hndr ⟨l.length - 1 - l.indexOf c, hk⟩
  simpa [List.get_eq_getElem, hrev] using this

lemma rot_inv {n p off : Nat} (hn : 0 < n) (hp : p < n) :
    ((n - 1 - (p + off) % n) + off) % n = n - 1 - p := by
  have hq : (p + off) % n < n := Nat.mod_lt _ hn
  have hk : p + off = n * ((p + off) / n) + (p + off) % n :=
    (Nat.div_add_mod (p + off) n).symm
  have h2 : (n - 1 - (p + off) % n) + off = (n - 1 - p) + n * ((p + off) / n) := by
    omega
  rw [h2, Nat.add_mul_mod_self_left, Nat.mod_eq_of_lt (by omega)]

lemma getD_lt_256 {A l : List Nat} {i : Nat} (hb : ∀ x ∈ A, x < 256)
    (hwf : ∀ c ∈ l, c ∈ A) : l.getD i 0 < 256 := by
  by_cases hi : i < l.length
  · rw [List.getD_eq_getElem l 0 hi]
    exact hb _ (hwf _ (List.getElem_mem hi))
  · rw [List.getD_eq_default l 0 (by omega)]
    omega

lemma encStep_wf {A l : List Nat} {i : Nat} (hne : A ≠ [])
    (hb : ∀ x ∈ A, x < 256) (hwf : ∀ c ∈ l, c ∈ A) :
    ∃ l₁, encStep A l i = some l₁ ∧ l₁.length = l.length ∧ ∀ c ∈ l₁, c ∈ A := by
  have hlenA : A.length ≠ 0 := fun h => hne (List.length_eq_zero.mp h)
  have hvis : ∀ j c, l[j]? = some c → j ≠ i → c ∈ A := fun j c hj hne' =>
    wf_vis hwf j c i hj hne'
  obtain ⟨perm, hperm, hpermA⟩ := disorder_some_perm hb hvis
  obtain ⟨s, hs, _⟩ := get_seed_mod_some hlenA hb hvis
  have hc256 : ¬ 256 ≤ l.getD i 0 := by
    have := getD_lt_256 hb hwf (i := i)
    omega
  by_cases hpos : posMapFun perm (l.getD i 0) = 255
  · refine ⟨l, ?_, rfl, hwf⟩
    simp only [encStep, hperm, hs]
    rw [if_neg hc256, if_pos hpos]
  · have hq : (posMapFun perm (l.getD i 0) + (s + i * i + 1)) % A.length < perm.length := by
      rw [hpermA.length_eq]
      exact Nat.mod_lt _ (Nat.pos_of_ne_zero hlenA)
    refine ⟨l.set i (perm.getD ((posMapFun perm (l.getD i 0) + (s + i * i + 1)) % A.length) 0),
      ?_, List.length_set l _ _, ?_⟩
    · simp only [encStep, hperm, hs]
      rw [if_neg hc256, if_neg hpos]
    · intro c hc
      rcases List.mem_or_eq_of_mem_set hc with h | h
      · exact hwf c h
      · subst h
        rw [List.getD_eq_getElem perm 0 hq]
        exact hpermA.mem_iff.mp (List.getElem_mem hq)

lemma decStep_wf {A l : List Nat} {i : Nat} (hne : A ≠ [])
    (hb : ∀ x ∈ A, x < 256) (hwf : ∀ c ∈ l, c ∈ A) :
    ∃ l₁, decStep A l i = some l₁ ∧ l₁.length = l.length ∧ ∀ c ∈ l₁, c ∈ A := by
  have hlenA : A.length ≠ 0 := fun h => hne (List.length_eq_zero.mp h)
  have hvis : ∀ j c, l[j]? = some c → j ≠ i → c ∈ A := fun j c hj hne' =>
    wf_vis hwf j c i hj hne'
  obtain ⟨perm, hperm, hpermA⟩ := disorder_some_perm hb hvis
  obtain ⟨s, hs, _⟩ := get_seed_mod_some hlenA hb hvis
  have hc256 : ¬ 256 ≤ l.getD i 0 := by
    have := getD_lt_256 hb hwf (i := i)
    omega
  by_cases hpos : decPosMapFun perm (l.getD i 0) = 255
  · refine ⟨l, ?_, rfl, hwf⟩
    simp only [decStep, hperm, hs]
    rw [if_neg hc256, if_pos hpos]
  · have hq : (decPosMapFun perm (l.getD i 0) + (s + i * i + 1)) % A.length
        < perm.reverse.length := by
      rw [List.length_reverse, hpermA.length_eq]
      exact Nat.mod_lt _ (Nat.pos_of_ne_zero hlenA)
    refine ⟨l.set i
      (perm.reverse.getD ((decPosMapFun perm (l.getD i 0) + (s + i * i + 1)) % A.length) 0),
      ?_, List.length_set l _ _, ?_⟩
    · simp only [decStep, hperm, hs]
      rw [if_neg hc256, if_neg hpos]
    · intro c hc
      rcases List.mem_or_eq_of_mem_set hc with h | h
      · exact hwf c h
      · subst h
        rw [List.getD_eq_getElem perm.reverse 0 hq]
        have : perm.reverse[(decPosMapFun perm (l.getD i 0) + (s + i * i + 1)) % A.length]
            ∈ perm.reverse := List.getElem_mem hq
        rw [List.mem_reverse] at this
        exact hpermA.mem_iff.mp this

lemma encStep_none {A l : List Nat} {i j c : Nat} (hne : A ≠ [])
    (hjc : l[j]? = some c) (hcA : c ∉ A) (hij : j ≠ i) :
    encStep A l i = none := by
  have hlenA : A.length ≠ 0 := fun h => hne (List.length_eq_zero.mp h)
  have hseed : get_seed_mod A l i A.length = none :=
    get_seed_mod_none hlenA hjc hij (char_to_val_none hcA)
  cases hd : disorder A l i with
  | none => simp only [encStep, hd]
  | some perm => simp only [encStep, hd, hseed]

lemma decStep_none {A l : List Nat} {i j c : Nat} (hne : A ≠ [])
    (hjc : l[j]? = some c) (hcA : c ∉ A) (hij : j ≠ i) :
    decStep A l i = none := by
  have hlenA : A.length ≠ 0 := fun h => hne (List.length_eq_zero.mp h)
  have hseed : get_seed_mod A l i A.length = none :=
    get_seed_mod_none hlenA hjc hij (char_to_val_none hcA)
  cases hd : disorder A l i with
  | none => simp only [decStep, hd]
  | some perm => simp only [decStep, hd, hseed]

lemma encStep_skip {A l : List Nat} {i : Nat} (hne : A ≠ [])
    (hb : ∀ x ∈ A, x < 256)
    (hvis : ∀ j c, l[j]? = some c → j ≠ i → c ∈ A)
    (hci : l.getD i 0 ∉ A) (hc256 : l.getD i 0 < 256) :
    encStep A l i = some l := by
  have hlenA : A.length ≠ 0 := fun h => hne (List.length_eq_zero.mp h)
  obtain ⟨perm, hperm, hpermA⟩ := disorder_some_perm hb hvis
  obtain ⟨s, hs, _⟩ := get_seed_mod_some hlenA hb hvis
  have hpos : posMapFun perm (l.getD i 0) = 255 :=
    posMapFun_not_mem (fun hmem => hci (hpermA.mem_iff.mp hmem))
  simp only [encStep, hperm, hs]
  rw [if_neg (by omega), if_pos hpos]

lemma decStep_skip {A l : List Nat} {i : Nat} (hne : A ≠ [])
    (hb : ∀ x ∈ A, x < 256)
    (hvis : ∀ j c, l[j]? = some c → j ≠ i → c ∈ A)
    (hci : l.getD i 0 ∉ A) (hc256 : l.getD i 0 < 256) :
    decStep A l i = some l := by
  have hlenA : A.length ≠ 0 := fun h => hne (List.length_eq_zero.mp h)
  obtain ⟨perm, hperm, hpermA⟩ := disorder_some_perm hb hvis
  obtain ⟨s, hs, _⟩ := get_seed_mod_some hlenA hb hvis
  have hpos : decPosMapFun perm (l.getD i 0) = 255 := by
    rw [decPosMapFun_eq]
    refine posMapFun_not_mem (fun hmem => ?_)
    rw [List.mem_reverse] at hmem
    exact hci (hpermA.mem_iff.mp hmem)
  simp only [decStep, hperm, hs]
  rw [if_neg (by omega), if_pos hpos]

lemma decStep_restore {A l perm : List Nat} {i s q : Nat}
    (hnd : A.Nodup) (hb : ∀ x ∈ A, x < 256) (hne : A ≠ [])
    (hlen : A.length ≤ 255) (hi : i < l.length)
    (hperm : disorder A l i = some perm) (hpermA : List.Perm perm A)
    (hs : get_seed_mod A l i A.length = some s)
    (hcperm : l[i] ∈ perm)
    (hq : q = (perm.indexOf l[i] + (s + i * i + 1)) % A.length)
    (hqperm : q < perm.length) :
    decStep A (l.set i perm[q]) i = some l := by
  have hlenA : A.length ≠ 0 := fun h => hne (List.length_eq_zero.mp h)
  have hApos : 0 < A.length := Nat.pos_of_ne_zero hlenA
  have hpermNd : perm.Nodup := hpermA.symm.nodup hnd
  have hpermLen : perm.length = A.length := hpermA.length_eq
  have hp : perm.indexOf l[i] < perm.length := List.indexOf_lt_length.mpr hcperm
  have hd1 : disorder A (l.set i perm[q]) i = some perm := by
    rw [disorder_set]
    exact hperm
  have hd2 : get_seed_mod A (l.set i perm[q]) i A.length = some s := by
    rw [get_seed_mod_set]
    exact hs
  have hiL : i < (l.set i perm[q]).length := by
    rw [List.length_set]
    exact hi
  have hgetD1 : (l.set i perm[q]).getD i 0 = perm[q] := by
    rw [List.getD_eq_getElem _ 0 hiL]
    exact List.getElem_set_self hiL
  have heA : perm[q] ∈ A := hpermA.mem_iff.mp (List.getElem_mem hqperm)
  have he256 : ¬ 256 ≤ (l.set i perm[q]).getD i 0 := by
    rw [hgetD1]
    have := hb _ heA
    omega
  have herev : perm[q] ∈ perm.reverse := List.mem_reverse.mpr (List.getElem_mem hqperm)
  have hndrev : perm.reverse.Nodup := List.nodup_reverse.mpr hpermNd
  obtain ⟨hpv, hpne⟩ := posMapFun_nodup hndrev herev (by rw [List.length_reverse]; omega)
  have hidxe : perm.indexOf perm[q] = q := by
    have := List.get_indexOf hpermNd ⟨q, hqperm⟩
    simpa [List.get_eq_getElem] using this
  have hrevidx : perm.reverse.indexOf perm[q] = A.length - 1 - q := by
    rw [indexOf_reverse hpermNd (List.getElem_mem hqperm), hidxe, hpermLen]
  have hdpv : decPosMapFun perm ((l.set i perm[q]).getD i 0) = A.length - 1 - q := by
    rw [hgetD1, decPosMapFun_eq, hpv, hrevidx]
  have hrot : ((A.length - 1 - q) + (s + i * i + 1)) % A.length
      = A.length - 1 - perm.indexOf l[i] := by
    rw [hq]
    exact rot_inv hApos (by omega)
  have hfin : perm.reverse.getD (((A.length - 1 - q) + (s + i * i + 1)) % A.length) 0
      = l[i] := by
    rw [hrot]
    have hb1 : A.length - 1 - perm.indexOf l[i] < perm.reverse.length := by
      rw [List.length_reverse]
      omega
    rw [List.getD_eq_getElem _ 0 hb1, List.getElem_reverse]
    have hidx2 : perm.length - 1 - (A.length - 1 - perm.indexOf l[i])
        = perm.indexOf l[i] := by omega
    have hlt3 : perm.length - 1 - (A.length - 1 - perm.indexOf l[i]) < perm.length := by
      omega
    have hov2 : perm[perm.length - 1 - (A.length - 1 - perm.indexOf l[i])]? = some l[i] := by
      rw [hidx2, List.getElem?_eq_getElem hp, getElem_indexOf hp]
    have hsome := List.getElem?_eq_getElem hlt3
    rw [hov2] at hsome
    exact ((Option.some.injEq _ _).mp hsome).symm
  simp only [decStep, hd1, hd2]
  rw [if_neg he256, hdpv, if_neg (by omega : ¬ A.length - 1 - q = 255), hfin,
    List.set_set, set_getElem_self l i hi]

lemma encStep_decStep {A l : List Nat} {i : Nat}
    (hnd : A.Nodup) (hb : ∀ x ∈ A, x < 256) (hne : A ≠ [])
    (hlen : A.length ≤ 255) (hwf : ∀ c ∈ l, c ∈ A) (hi : i < l.length) :
    ∃ l₁, encStep A l i = some l₁ ∧ l₁.length = l.length ∧ (∀ c ∈ l₁, c ∈ A) ∧
      decStep A l₁ i = some l := by
  have hlenA : A.length ≠ 0 := fun h => hne (List.length_eq_zero.mp h)
  have hApos : 0 < A.length := Nat.pos_of_ne_zero hlenA
  have hvis : ∀ j c, l[j]? = some c → j ≠ i → c ∈ A := fun j c hj hne' =>
    wf_vis hwf j c i hj hne'
  obtain ⟨perm, hperm, hpermA⟩ := disorder_some_perm hb hvis
  obtain ⟨s, hs, _⟩ := get_seed_mod_some hlenA hb hvis
  have hpermNd : perm.Nodup := hpermA.symm.nodup hnd
  have hpermLen : perm.length = A.length := hpermA.length_eq
  have hgetD : l.getD i 0 = l[i] := List.getD_eq_getElem l 0 hi
  have hcA : l[i] ∈ A := hwf _ (List.getElem_mem hi)
  have hcperm : l[i] ∈ perm := hpermA.mem_iff.mpr hcA
  have hc256 : ¬ 256 ≤ l.getD i 0 := by
    rw [hgetD]
    have := hb _ hcA
    omega
  obtain ⟨hposval, hposne⟩ := posMapFun_nodup hpermNd hcperm (by omega)
  have hqperm : (perm.indexOf l[i] + (s + i * i + 1)) % A.length < perm.length := by
    rw [hpermLen]
    exact Nat.mod_lt _ hApos
  have hfold : posMapFun perm (l.getD i 0) = perm.indexOf l[i] := by
    rw [hgetD]
    exact hposval
  refine ⟨l.set i perm[(perm.indexOf l[i] + (s + i * i + 1)) % A.length],
    ?_, List.length_set l _ _, ?_, ?_⟩
  · simp only [encStep, hperm, hs]
    rw [if_neg hc256, hfold, if_neg hposne,
      List.getD_eq_getElem perm 0 hqperm]
  · intro c hc
    rcases List.mem_or_eq_of_mem_set hc with h | h
    · exact hwf c h
    · subst h
      exact hpermA.mem_iff.mp (List.getElem_mem hqperm)
  · exact decStep_restore hnd hb hne hlen hi hperm hpermA hs hcperm rfl hqperm

/-! ### Whole-pass lemmas -/

lemma encFrom_wf {A : List Nat} (hne : A ≠ []) (hb : ∀ x ∈ A, x < 256) :
    ∀ (fuel i : Nat) (l : List Nat), (∀ c ∈ l, c ∈ A) →
      ∃ out, encFrom A i fuel l = some out ∧ out.length = l.length ∧
        ∀ c ∈ out, c ∈ A := by
  intro fuel
  induction fuel with
  | zero => intro i l hwf; exact ⟨l, rfl, rfl, hwf⟩
  | succ fuel ih =>
    intro i l hwf
    obtain ⟨l₁, h1, hlen1, hwf1⟩ := encStep_wf (i := i) hne hb hwf
    obtain ⟨out, hout, hlen2, hwf2⟩ := ih (i + 1) l₁ hwf1
    refine ⟨out, ?_, by omega, hwf2⟩
    rw [encFrom, h1]
    exact hout

lemma decFrom_wf {A : List Nat} (hne : A ≠ []) (hb : ∀ x ∈ A, x < 256) :
    ∀ (fuel : Nat) (l : List Nat), (∀ c ∈ l, c ∈ A) →
      ∃ out, decFrom A fuel l = some out ∧ out.length = l.length ∧
        ∀ c ∈ out, c ∈ A := by
  intro fuel
  induction fuel with
  | zero => intro l hwf; exact ⟨l, rfl, rfl, hwf⟩
  | succ fuel ih =>
    intro l hwf
    obtain ⟨l₁, h1, hlen1, hwf1⟩ := decStep_wf (i := fuel) hne hb hwf
    obtain ⟨out, hout, hlen2, hwf2⟩ := ih l₁ hwf1
    refine ⟨out, ?_, by omega, hwf2⟩
    rw [decFrom, h1]
    exact hout

lemma encFrom_decFrom {A : List Nat} (hnd : A.Nodup) (hb : ∀ x ∈ A, x < 256)
    (hne : A ≠ []) (hlen : A.length ≤ 255) :
    ∀ (fuel i : Nat) (l r : List Nat), (∀ c ∈ l, c ∈ A) → i + fuel = l.length →
      encFrom A i fuel l = some r → decFrom A (i + fuel) r = decFrom A i l := by
  intro fuel
  induction fuel with
  | zero =>
    intro i l r _ _ h
    have hlr : l = r := by simpa [encFrom] using h
    subst hlr
    rfl
  | succ fuel ih =>
    intro i l r hwf hilen h
    obtain ⟨l₁, h1, hlen1, hwf1, hrest⟩ :=
      encStep_decStep hnd hb hne hlen hwf (by omega : i < l.length)
    rw [encFrom, h1] at h
    have hIH := ih (i + 1) l₁ r hwf1 (by omega) h
    have hadd : i + (fuel + 1) = i + 1 + fuel := by omega
    rw [hadd, hIH, decFrom, hrest]

lemma encrypt_once_decrypt_once {A d : List Nat} (hnd : A.Nodup)
    (hb : ∀ x ∈ A, x < 256) (hne : A ≠ []) (hlen : A.length ≤ 255)
    (hwf : ∀ c ∈ d, c ∈ A) :
    ∃ e, encrypt_once A d = some e ∧ e.length = d.length ∧ (∀ c ∈ e, c ∈ A) ∧
      decrypt_once A e = some d := by
  obtain ⟨e, he, hlen1, hwfe⟩ := encFrom_wf hne hb d.length 0 d hwf
  refine ⟨e, he, hlen1, hwfe, ?_⟩
  have h := encFrom_decFrom hnd hb hne hlen d.length 0 d e hwf (by omega) he
  unfold decrypt_once
  rw [hlen1]
  have h2 : decFrom A d.length e = decFrom A 0 d := by simpa using h
  rw [h2]
  rfl

lemma decrypt_succ_comm {A : List Nat} : ∀ (n : Nat) (x : List Nat),
    decrypt A x (n + 1) =
      (match decrypt A x n with
       | none => none
       | some y => decrypt_once A y) := by
  intro n
  induction n with
  | zero =>
    intro x
    cases h : decrypt_once A x with
    | none => simp only [decrypt, h]
    | some r => simp only [decrypt, h]
  | succ n ih =>
    intro x
    cases h : decrypt_once A x with
    | none => simp only [decrypt, h]
    | some r =>
      have hl : decrypt A x (n + 1 + 1) = decrypt A r (n + 1) := by
        simp only [decrypt, h]
      have hx : decrypt A x (n + 1) = decrypt A r n := by
        simp only [decrypt, h]
      rw [hl, ih r, hx]

lemma encrypt_decrypt_iter {A : List Nat} (hnd : A.Nodup)
    (hb : ∀ x ∈ A, x < 256) (hne : A ≠ []) (hlen : A.length ≤ 255) :
    ∀ (n : Nat) (d : List Nat), (∀ c ∈ d, c ∈ A) →
      ∃ e, encrypt A d n = some e ∧ e.length = d.length ∧ (∀ c ∈ e, c ∈ A) ∧
        decrypt A e n = some d := by
  intro n
  induction n with
  | zero => intro d hwf; exact ⟨d, rfl, rfl, hwf, rfl⟩
  | succ n ih =>
    intro d hwf
    obtain ⟨e₁, he₁, hlen₁, hwf₁, hdec₁⟩ :=
      encrypt_once_decrypt_once hnd hb hne hlen hwf
    obtain ⟨e, he, hlen₂, hwf₂, hdec⟩ := ih e₁ hwf₁
    refine ⟨e, ?_, by omega, hwf₂, ?_⟩
    · rw [encrypt, he₁]
      exact he
    · rw [decrypt_succ_comm, hdec]
      exact hdec₁

lemma decrypt_iter_wf {A : List Nat} (hne : A ≠ []) (hb : ∀ x ∈ A, x < 256) :
    ∀ (n : Nat) (s : List Nat), (∀ c ∈ s, c ∈ A) →
      ∃ d, decrypt A s n = some d ∧ d.length = s.length ∧ ∀ c ∈ d, c ∈ A := by
  intro n
  induction n with
  | zero => intro s hwf; exact ⟨s, rfl, rfl, hwf⟩
  | succ n ih =>
    intro s hwf
    obtain ⟨d₁, h1, hlen1, hwf1⟩ := decFrom_wf hne hb s.length s hwf
    obtain ⟨d, hd, hlen2, hwf2⟩ := ih d₁ hwf1
    refine ⟨d, ?_, by omega, hwf2⟩
    rw [decrypt]
    show (match decrypt_once A s with
          | none => none
          | some r => decrypt A r n) = some d
    unfold decrypt_once
    rw [h1]
    exact hd

/-! ### Behaviour on inputs containing foreign symbols -/

lemma encStep_big {A l : List Nat} {i : Nat} (hne : A ≠ [])
    (hb : ∀ x ∈ A, x < 256)
    (hvis : ∀ j c, l[j]? = some c → j ≠ i → c ∈ A)
    (hc256 : 256 ≤ l.getD i 0) : encStep A l i = none := by
  have hlenA : A.length ≠ 0 := fun h => hne (List.length_eq_zero.mp h)
  obtain ⟨perm, hperm, _⟩ := disorder_some_perm hb hvis
  obtain ⟨s, hs, _⟩ := get_seed_mod_some hlenA hb hvis
  simp only [encStep, hperm, hs]
  rw [if_pos hc256]

lemma decStep_big {A l : List Nat} {i : Nat} (hne : A ≠ [])
    (hb : ∀ x ∈ A, x < 256)
    (hvis : ∀ j c, l[j]? = some c → j ≠ i → c ∈ A)
    (hc256 : 256 ≤ l.getD i 0) : decStep A l i = none := by
  have hlenA : A.length ≠ 0 := fun h => hne (List.length_eq_zero.mp h)
  obtain ⟨perm, hperm, _⟩ := disorder_some_perm hb hvis
  obtain ⟨s, hs, _⟩ := get_seed_mod_some hlenA hb hvis
  simp only [decStep, hperm, hs]
  rw [if_pos hc256]

lemma encrypt_once_foreign {A l : List Nat} (hne : A ≠ [])
    (hb : ∀ x ∈ A, x < 256) (hlen2 : 2 ≤ l.length)
    {j c : Nat} (hjc : l[j]? = some c) (hcA : c ∉ A) :
    encrypt_once A l = none := by
  obtain ⟨k, hk⟩ : ∃ k, l.length = k + 2 := ⟨l.length - 2, by omega⟩
  unfold encrypt_once
  rw [hk]
  by_cases hbad0 : ∃ j' c', l[j']? = some c' ∧ c' ∉ A ∧ j' ≠ 0
  · obtain ⟨j', c', hjc', hcA', hj0'⟩ := hbad0
    rw [encFrom, encStep_none hne hjc' hcA' hj0']
  · have hj0 : j = 0 := by
      by_contra hj0
      exact hbad0 ⟨j, c, hjc, hcA, hj0⟩
    subst hj0
    have hvis : ∀ j' c', l[j']? = some c' → j' ≠ 0 → c' ∈ A := by
      intro j' c' hj' hne'
      by_contra hc'
      exact hbad0 ⟨j', c', hj', hc', hne'⟩
    have h0lt : 0 < l.length := by omega
    have hgd : l.getD 0 0 = c := by
      rw [List.getD_eq_getElem l 0 h0lt]
      exact (List.getElem?_eq_some.mp hjc).2
    by_cases hc256 : 256 ≤ c
    · rw [encFrom, encStep_big hne hb hvis (by omega)]
    · have hstep0 : encStep A l 0 = some l :=
        encStep_skip hne hb hvis (by rw [hgd]; exact hcA) (by omega)
      rw [encFrom, hstep0]
      show encFrom A (0 + 1) (k + 1) l = none
      have hstep1 : encStep A l (0 + 1) = none := encStep_none hne hjc hcA (by omega)
      rw [encFrom, hstep1]

lemma decrypt_once_foreign {A l : List Nat} (hne : A ≠ [])
    (hb : ∀ x ∈ A, x < 256) (hlen2 : 2 ≤ l.length)
    {j c : Nat} (hjc : l[j]? = some c) (hcA : c ∉ A) :
    decrypt_once A l = none := by
  obtain ⟨k, hk⟩ : ∃ k, l.length = k + 2 := ⟨l.length - 2, by omega⟩
  unfold decrypt_once
  rw [hk]
  by_cases hbadlast : ∃ j' c', l[j']? = some c' ∧ c' ∉ A ∧ j' ≠ k + 1
  · obtain ⟨j', c', hjc', hcA', hjl'⟩ := hbadlast
    rw [decFrom, decStep_none hne hjc' hcA' hjl']
  · have hjlast : j = k + 1 := by
      by_contra hjl
      exact hbadlast ⟨j, c, hjc, hcA, hjl⟩
    subst hjlast
    have hvis : ∀ j' c', l[j']? = some c' → j' ≠ k + 1 → c' ∈ A := by
      intro j' c' hj' hne'
      by_contra hc'
      exact hbadlast ⟨j', c', hj', hc', hne'⟩
    have hllt : k + 1 < l.length := by omega
    have hgd : l.getD (k + 1) 0 = c := by
      rw [List.getD_eq_getElem l 0 hllt]
      exact (List.getElem?_eq_some.mp hjc).2
    by_cases hc256 : 256 ≤ c
    · rw [decFrom, decStep_big hne hb hvis (by omega)]
    · have hstep : decStep A l (k + 1) = some l :=
        decStep_skip hne hb hvis (by rw [hgd]; exact hcA) (by omega)
      rw [decFrom, hstep]
      show decFrom A (k + 1) l = none
      have hstep1 : decStep A l k = none := decStep_none hne hjc hcA (by omega)
      rw [decFrom, hstep1]

lemma single_foreign_unchanged {A : List Nat} {c : Nat} (hne : A ≠ [])
    (hb : ∀ x ∈ A, x < 256) (hcA : c ∉ A) (hc256 : c < 256) :
    encrypt_once A [c] = some [c] ∧ decrypt_once A [c] = some [c] := by
  have hvis : ∀ j c', [c][j]? = some c' → j ≠ 0 → c' ∈ A := by
    intro j c' hj hne'
    cases j with
    | zero => omega
    | succ j => simp at hj
  have hgd : [c].getD 0 0 = c := rfl
  constructor
  · show encFrom A 0 1 [c] = some [c]
    rw [encFrom, encStep_skip hne hb hvis (by rw [hgd]; exact hcA) (by omega)]
    rfl
  · show decFrom A 1 [c] = some [c]
    rw [decFrom, decStep_skip hne hb hvis (by rw [hgd]; exact hcA) (by omega)]
    rfl

/-! ### The default a-z alphabet and the Codec model -/

lemma AZ_mem {c : Nat} : c ∈ AZ ↔ 97 ≤ c ∧ c ≤ 122 := by
  unfold AZ
  rw [List.mem_map]
  constructor
  · rintro ⟨k, hk, rfl⟩
    rw [List.mem_range] at hk
    omega
  · rintro ⟨h1, h2⟩
    exact ⟨c - 97, List.mem_range.mpr (by omega), by omega⟩

lemma AZ_nodup : AZ.Nodup := by decide

lemma AZ_bound : ∀ x ∈ AZ, x < 256 := by decide

lemma AZ_ne : AZ ≠ [] := by decide

lemma AZ_len : AZ.length = 26 := by decide

lemma digitsLE_zero : digitsLE 0 = [] := by
  unfold digitsLE
  rfl

lemma digitsLE_succ {n : Nat} (h : n ≠ 0) :
    digitsLE n = n % 26 :: digitsLE (n / 26) := by
  rw [digitsLE]
  rw [dif_neg h]

lemma digitsLE_lt : ∀ n, ∀ d ∈ digitsLE n, d < 26 := by
  intro n
  induction n using Nat.strong_induction_on with
  | _ n ih =>
    intro d hd
    by_cases hn : n = 0
    · subst hn
      rw [digitsLE_zero] at hd
      simp at hd
    · rw [digitsLE_succ hn] at hd
      rcases List.mem_cons.mp hd with h | h
      · subst h
        exact Nat.mod_lt _ (by omega)
      · exact ih (n / 26) (Nat.div_lt_self (Nat.pos_of_ne_zero hn) (by omega)) d h

lemma valLE_digitsLE : ∀ n, valLE (digitsLE n) = n := by
  intro n
  induction n using Nat.strong_induction_on with
  | _ n ih =>
    by_cases hn : n = 0
    · subst hn
      rw [digitsLE_zero]
      rfl
    · rw [digitsLE_succ hn]
      show n % 26 + 26 * valLE (digitsLE (n / 26)) = n
      rw [ih (n / 26) (Nat.div_lt_self (Nat.pos_of_ne_zero hn) (by omega))]
      omega

lemma foldl_reverse_valLE :
    ∀ (ds : List Nat) (a : Nat),
      ds.reverse.foldl (fun x d => x * 26 + d) a = a * 26 ^ ds.length + valLE ds := by
  intro ds
  induction ds with
  | nil => intro a; simp [valLE]
  | cons d rest ih =>
    intro a
    rw [List.reverse_cons, List.foldl_append, ih a]
    show (a * 26 ^ rest.length + valLE rest) * 26 + d = a * 26 ^ (rest.length + 1) + (d + 26 * valLE rest)
    ring

lemma fromBase_toBase (cp : Nat) : fromBaseAZ (toBaseAZ cp) = some cp := by
  by_cases hcp : cp = 0
  · subst hcp
    rfl
  · unfold toBaseAZ fromBaseAZ
    rw [if_neg hcp]
    have hne : digitsLE cp ≠ [] := by
      rw [digitsLE_succ hcp]
      simp
    rw [if_neg (by simp [hne])]
    rw [if_pos ?hall]
    case hall =>
      rw [List.all_eq_true]
      intro c hc
      rw [List.mem_map] at hc
      obtain ⟨d, hd, rfl⟩ := hc
      rw [List.mem_reverse] at hd
      have := digitsLE_lt cp d hd
      simp only [Bool.and_eq_true, decide_eq_true_eq]
      omega
    congr 1
    rw [List.foldl_map]
    have hsub : ((digitsLE cp).reverse.foldl (fun x y => x * 26 + (y + 97 - 97)) 0)
        = (digitsLE cp).reverse.foldl (fun x y => x * 26 + y) 0 := by
      simp
    rw [hsub]
    have := foldl_reverse_valLE (digitsLE cp) 0
    rw [this, valLE_digitsLE]
    omega

lemma toBase_mem_AZ (cp : Nat) : ∀ c ∈ toBaseAZ cp, c ∈ AZ := by
  intro c hc
  unfold toBaseAZ at hc
  by_cases hcp : cp = 0
  · rw [if_pos hcp] at hc
    have : c = 97 := by simpa using hc
    subst this
    rw [AZ_mem]
    omega
  · rw [if_neg hcp] at hc
    rw [List.mem_map] at hc
    obtain ⟨d, hd, rfl⟩ := hc
    rw [List.mem_reverse] at hd
    have := digitsLE_lt cp d hd
    rw [AZ_mem]
    omega

/-! ### Facade decode helper -/

lemma uniaz_decode_branch (d : List Nat) :
    ∃ r, (match fromBaseAZ d with
      | none => some (Except.error DecryptError.InvalidToken)
      | some n =>
        if n < 4294967296 then
          if isScalar n then some (Except.ok n)
          else some (Except.error DecryptError.InvalidCodepoint)
        else some (Except.error DecryptError.InvalidToken)) = some r ∧
      r ≠ Except.error DecryptError.InvalidCipherText := by
  cases hfb : fromBaseAZ d with
  | none =>
    exact ⟨_, rfl, fun h => DecryptError.noConfusion (Except.error.inj h)⟩
  | some n =>
    by_cases h1 : n < 4294967296
    · by_cases h2 : isScalar n = true
      · refine ⟨Except.ok n, ?_, fun h => Except.noConfusion h⟩
        show (if n < 4294967296 then
            if isScalar n then some (Except.ok n)
            else some (Except.error DecryptError.InvalidCodepoint)
          else some (Except.error DecryptError.InvalidToken)) = some (Except.ok n)
        rw [if_pos h1, if_pos h2]
      · refine ⟨Except.error DecryptError.InvalidCodepoint, ?_,
          fun h => DecryptError.noConfusion (Except.error.inj h)⟩
        show (if n < 4294967296 then
            if isScalar n then some (Except.ok n)
            else some (Except.error DecryptError.InvalidCodepoint)
          else some (Except.error DecryptError.InvalidToken)) =
          some (Except.error DecryptError.InvalidCodepoint)
        rw [if_pos h1, if_neg h2]
    · refine ⟨Except.error DecryptError.InvalidToken, ?_,
          fun h => DecryptError.noConfusion (Except.error.inj h)⟩
      show (if n < 4294967296 then
          if isScalar n then some (Except.ok n)
          else some (Except.error DecryptError.InvalidCodepoint)
        else some (Except.error DecryptError.InvalidToken)) =
        some (Except.error DecryptError.InvalidToken)
      rw [if_neg h1]

/-! ### Claim theorems -/

/-- Claim C1, counterexample: the alphabet `"aab"` (code points 97, 97, 98)
is accepted at construction (non-empty, all symbols below 256) and the digit
sequence `"b"` is drawn from it, yet one backward pass applied to one forward
pass does not return `"b"` (it returns `"a"`): the claim's round trip fails
for an accepted alphabet containing a duplicate symbol. -/
theorem C1_counterexample :
    (([97, 97, 98] : List Nat) ≠ []) ∧
      (∀ x ∈ ([97, 97, 98] : List Nat), x < 256) ∧
      (∀ c ∈ ([98] : List Nat), c ∈ ([97, 97, 98] : List Nat)) ∧
      Option.bind (encrypt [97, 97, 98] [98] 1) (fun e => decrypt [97, 97, 98] e 1) ≠
        some [98] := by decide

/-- Claim C1 (amended): for every duplicate-free alphabet of at most 255
symbols accepted at construction, every digit sequence `d` over that alphabet
and every iteration count `n ≥ 0`, applying the backward transform `n` times
to the result of applying the forward transform `n` times yields `d`:
`decrypt (encrypt d n) n = d`. -/
theorem C1_roundtrip_amended {A d : List Nat} (hnd : A.Nodup)
    (hb : ∀ x ∈ A, x < 256) (hne : A ≠ []) (hlen : A.length ≤ 255)
    (hwf : ∀ c ∈ d, c ∈ A) (n : Nat) :
    ∃ e, encrypt A d n = some e ∧ decrypt A e n = some d := by
  obtain ⟨e, he, _, _, hd⟩ := encrypt_decrypt_iter hnd hb hne hlen n d hwf
  exact ⟨e, he, hd⟩

/-- Witness for C1: the round trip at alphabet "ab", input "ba", `n = 2`. -/
theorem C1_roundtrip_witness :
    ∃ e, encrypt [97, 98] [98, 97] 2 = some e ∧ decrypt [97, 98] e 2 = some [98, 97] :=
  C1_roundtrip_amended (by decide) (by decide) (by decide) (by decide) (by decide) 2

/-- Claim C2: for every Unicode scalar value `cp`, decrypting the encryption
of `cp` under the default a-z configuration returns exactly `cp`
(the external base-conversion Codec is modelled as a correct base-26
transcoder). -/
theorem C2_char_roundtrip {cp : Nat} (h : isScalar cp = true) :
    ∃ e, uniaz_encrypt cp = some e ∧ uniaz_decrypt e = some (Except.ok cp) := by
  have hwf := toBase_mem_AZ cp
  obtain ⟨e, he, hlen, hwfe, hdec⟩ :=
    encrypt_decrypt_iter AZ_nodup AZ_bound AZ_ne (by rw [AZ_len]; omega) 2
      (toBaseAZ cp) hwf
  refine ⟨e, he, ?_⟩
  have hall : e.all (fun c => 97 ≤ c && c ≤ 122) = true := by
    rw [List.all_eq_true]
    intro c hc
    have := AZ_mem.mp (hwfe c hc)
    simp only [Bool.and_eq_true, decide_eq_true_eq]
    omega
  unfold uniaz_decrypt
  rw [if_pos hall, hdec]
  show (match fromBaseAZ (toBaseAZ cp) with
    | none => some (Except.error DecryptError.InvalidToken)
    | some n =>
      if n < 4294967296 then
        if isScalar n then some (Except.ok n)
        else some (Except.error DecryptError.InvalidCodepoint)
      else some (Except.error DecryptError.InvalidToken)) = some (Except.ok cp)
  rw [fromBase_toBase]
  have hlt : cp < 4294967296 := by
    unfold isScalar at h
    simp only [Bool.or_eq_true, Bool.and_eq_true, decide_eq_true_eq] at h
    omega
  show (if cp < 4294967296 then
      if isScalar cp then some (Except.ok cp)
      else some (Except.error DecryptError.InvalidCodepoint)
    else some (Except.error DecryptError.InvalidToken)) = some (Except.ok cp)
  rw [if_pos hlt, if_pos h]

/-- Witness for C2: the round trip at the code point of `'A'`. -/
theorem C2_char_roundtrip_witness :
    isScalar 65 = true ∧
      ∃ e, uniaz_encrypt 65 = some e ∧ uniaz_decrypt e = some (Except.ok 65) :=
  ⟨by decide, C2_char_roundtrip (by decide)⟩

/-- Claim C3: for every input whose characters are all members of the
configured alphabet, one forward pass (`encrypt_once`) and one backward pass
(`decrypt_once`) each return a string of exactly the same length whose
characters are all members of the same alphabet. -/
theorem C3_transform_once_wf {A input : List Nat} (hne : A ≠ [])
    (hb : ∀ x ∈ A, x < 256) (hwf : ∀ c ∈ input, c ∈ A) :
    (∃ out, encrypt_once A input = some out ∧ out.length = input.length ∧
      ∀ c ∈ out, c ∈ A) ∧
    (∃ out, decrypt_once A input = some out ∧ out.length = input.length ∧
      ∀ c ∈ out, c ∈ A) := by
  constructor
  · unfold encrypt_once
    exact encFrom_wf hne hb input.length 0 input hwf
  · unfold decrypt_once
    exact decFrom_wf hne hb input.length input hwf

/-- Witness for C3 at alphabet "ab" and input "abb". -/
theorem C3_transform_once_wf_witness :
    (∃ out, encrypt_once [97, 98] [97, 98, 98] = some out ∧
      out.length = ([97, 98, 98] : List Nat).length ∧ ∀ c ∈ out, c ∈ ([97, 98] : List Nat)) ∧
    (∃ out, decrypt_once [97, 98] [97, 98, 98] = some out ∧
      out.length = ([97, 98, 98] : List Nat).length ∧ ∀ c ∈ out, c ∈ ([97, 98] : List Nat)) :=
  C3_transform_once_wf (by decide) (by decide) (by decide)

/-- Claim C4: `get_seed_mod digits skip m` equals the Horner fold
`remainder = (remainder*radix + value) mod m` over all digits except the one
at `skip`, in sequence order; it is 0 when `m = 0`, and 0 when excluding
`skip` leaves no digits (`length ≤ 1` with `skip` in range). -/
theorem C4_seed_horner {A digits : List Nat} (hnd : A.Nodup)
    (hb : ∀ x ∈ A, x < 256) (hwf : ∀ c ∈ digits, c ∈ A) (skip m : Nat) :
    get_seed_mod A digits skip m =
      some (if m = 0 then 0
            else seedModSpec A.length m
              ((digits.eraseIdx skip).map (fun c => A.indexOf c))) ∧
    (m = 0 → get_seed_mod A digits skip m = some 0) ∧
    (skip < digits.length → digits.length ≤ 1 →
      get_seed_mod A digits skip m = some 0) := by
  by_cases hm : m = 0
  · subst hm
    refine ⟨?_, fun _ => ?_, fun _ _ => ?_⟩ <;> simp [get_seed_mod]
  · have hval := @get_seed_mod_val A digits skip m hm hb hnd hwf
    refine ⟨?_, fun h => absurd h hm, fun h1 h2 => ?_⟩
    · rw [hval, if_neg hm]
    · rw [hval]
      cases digits with
      | nil => simp at h1
      | cons d ds =>
        have hds : ds = [] := by
          have : ds.length = 0 := by simpa using h2
          exact List.length_eq_zero.mp this
        subst hds
        have hskip : skip = 0 := by omega
        subst hskip
        simp [seedModSpec]

/-- Witness for C4 at alphabet "ab", digits "bab", skip 1, modulus 2. -/
theorem C4_seed_horner_witness :
    get_seed_mod [97, 98] [98, 97, 98] 1 2 =
      some (if 2 = 0 then 0
            else seedModSpec ([97, 98] : List Nat).length 2
              ((([98, 97, 98] : List Nat).eraseIdx 1).map
                (fun c => ([97, 98] : List Nat).indexOf c))) ∧
    ((2 : Nat) = 0 → get_seed_mod [97, 98] [98, 97, 98] 1 2 = some 0) ∧
    (1 < ([98, 97, 98] : List Nat).length → ([98, 97, 98] : List Nat).length ≤ 1 →
      get_seed_mod [97, 98] [98, 97, 98] 1 2 = some 0) :=
  C4_seed_horner (by decide) (by decide) (by decide) 1 2

/-- Claim C5: `disorder` always returns a rearrangement of the alphabet —
same length and same multiset of symbols (stated as a list permutation). -/
theorem C5_disorder_permutation {A digits : List Nat} (hne : A ≠ [])
    (hb : ∀ x ∈ A, x < 256) (hwf : ∀ c ∈ digits, c ∈ A) (skip : Nat) :
    ∃ p, disorder A digits skip = some p ∧ List.Perm p A ∧ p.length = A.length := by
  obtain ⟨p, hp, hperm⟩ :=
    disorder_some_perm hb (fun j c hj hne' => wf_vis hwf j c skip hj hne')
  exact ⟨p, hp, hperm, hperm.length_eq⟩

/-- Witness for C5 at alphabet "aab", digits "b", skip 0. -/
theorem C5_disorder_permutation_witness :
    ∃ p, disorder [97, 97, 98] [98] 0 = some p ∧
      List.Perm p [97, 97, 98] ∧ p.length = ([97, 97, 98] : List Nat).length :=
  C5_disorder_permutation (by decide) (by decide) (by decide) 0

/-- Claim C6, counterexample: with the default a-z alphabet, the length-1
input `"0"` (code point 48) contains a symbol outside the alphabet, yet both
`encrypt_once` and `decrypt_once` return it unchanged instead of failing —
the length-1 case never reaches an alphabet lookup for the foreign symbol. -/
theorem C6_counterexample :
    (48 ∉ AZ) ∧ encrypt_once AZ [48] = some [48] ∧
      decrypt_once AZ [48] = some [48] := by decide

/-- Claim C6 (amended): an input of length at least 2 containing a symbol
outside the alphabet always makes `encrypt_once` and `decrypt_once` fail
(the panic of the alphabet lookup, modelled as `none`) without returning an
output; a length-1 input whose sole symbol is foreign but inside the
256-entry table domain is instead returned unchanged. -/
theorem C6_unknown_symbol_amended {A : List Nat} (hne : A ≠ [])
    (hb : ∀ x ∈ A, x < 256) :
    (∀ l : List Nat, 2 ≤ l.length → (∃ c ∈ l, c ∉ A) →
      encrypt_once A l = none ∧ decrypt_once A l = none) ∧
    (∀ c : Nat, c < 256 → c ∉ A →
      encrypt_once A [c] = some [c] ∧ decrypt_once A [c] = some [c]) := by
  constructor
  · rintro l hlen2 ⟨c, hcl, hcA⟩
    obtain ⟨j, hj, he⟩ := List.getElem_of_mem hcl
    have hjc : l[j]? = some c := by rw [List.getElem?_eq_getElem hj, he]
    exact ⟨encrypt_once_foreign hne hb hlen2 hjc hcA,
      decrypt_once_foreign hne hb hlen2 hjc hcA⟩
  · intro c h1 h2
    exact single_foreign_unchanged hne hb h2 h1

/-- Witness for C6 at alphabet "ab": the two-symbol input "c a" fails, and
the single foreign symbol "c" is returned unchanged. -/
theorem C6_unknown_symbol_witness :
    (encrypt_once [97, 98] [99, 97] = none ∧ decrypt_once [97, 98] [99, 97] = none) ∧
    (encrypt_once [97, 98] [99] = some [99] ∧ decrypt_once [97, 98] [99] = some [99]) :=
  ⟨(C6_unknown_symbol_amended (by decide) (by decide)).1 [99, 97] (by decide)
      ⟨99, by decide, by decide⟩,
   (C6_unknown_symbol_amended (by decide) (by decide)).2 99 (by decide) (by decide)⟩

set_option maxRecDepth 8000 in
/-- Claim C7, counterexample: the 256-symbol alphabet of all byte values is
accepted at construction and the input `[0]` is well formed over it, yet the
`pos_map` lookup of the current symbol in the derived permutation returns the
sentinel 255 (the symbol sits at permutation index 255, which collides with
the sentinel), so the position is silently left unchanged by the forward
pass. -/
theorem C7_counterexample :
    (List.range 256 ≠ []) ∧ (∀ x ∈ List.range 256, x < 256) ∧
      (∀ c ∈ ([0] : List Nat), c ∈ List.range 256) ∧
      Option.map (fun p => posMapFun p 0) (disorder (List.range 256) [0] 0) =
        some 255 ∧
      encrypt_once (List.range 256) [0] = some [0] := by decide

/-- Claim C7 (amended): for every alphabet accepted at construction with at
most 255 symbols (duplicates allowed) and every well-formed state, the lookup
of the current symbol in the derived permutation (forward table) and in the
reversed permutation's rebuilt table (backward table) never returns the
sentinel 255, so the defensive branch is never taken and every position is
rewritten by the rotation rule. -/
theorem C7_lookup_never_sentinel {A l : List Nat} {i : Nat}
    (hne : A ≠ []) (hb : ∀ x ∈ A, x < 256) (hlen : A.length ≤ 255)
    (hwf : ∀ c ∈ l, c ∈ A) (hi : i < l.length) :
    ∃ perm, disorder A l i = some perm ∧
      posMapFun perm (l.getD i 0) ≠ 255 ∧
      decPosMapFun perm (l.getD i 0) ≠ 255 := by
  obtain ⟨perm, hperm, hpermA⟩ :=
    disorder_some_perm hb (fun j c hj hne' => wf_vis hwf j c i hj hne')
  have hgd : l.getD i 0 = l[i] := List.getD_eq_getElem l 0 hi
  have hcperm : l[i] ∈ perm := hpermA.mem_iff.mpr (hwf _ (List.getElem_mem hi))
  have herev : l[i] ∈ perm.reverse := List.mem_reverse.mpr hcperm
  refine ⟨perm, hperm, ?_, ?_⟩
  · rw [hgd]
    exact posMapFun_ne_sentinel hcperm (by rw [hpermA.length_eq]; omega)
  · rw [hgd, decPosMapFun_eq]
    exact posMapFun_ne_sentinel herev (by rw [List.length_reverse, hpermA.length_eq]; omega)

/-- Witness for C7 at the duplicated alphabet "aab", state "b", position 0. -/
theorem C7_lookup_never_sentinel_witness :
    ∃ perm, disorder [97, 97, 98] [98] 0 = some perm ∧
      posMapFun perm (([98] : List Nat).getD 0 0) ≠ 255 ∧
      decPosMapFun perm (([98] : List Nat).getD 0 0) ≠ 255 :=
  C7_lookup_never_sentinel (by decide) (by decide) (by decide)
    (by decide) (by decide)

/-- Claim C8: decrypting a string containing a character outside the a-z
alphabet yields the `InvalidCipherText` error (the pre-check fires before any
transform); an all-alphabet string instead yields a result that is never
`InvalidCipherText` — it succeeds or fails with `InvalidToken` or
`InvalidCodepoint`. -/
theorem C8_decrypt_rejects {s : List Nat} :
    ((∃ c ∈ s, c ∉ AZ) →
      uniaz_decrypt s = some (Except.error DecryptError.InvalidCipherText)) ∧
    ((∀ c ∈ s, c ∈ AZ) → ∃ r, uniaz_decrypt s = some r ∧
      r ≠ Except.error DecryptError.InvalidCipherText) := by
  constructor
  · rintro ⟨c, hcs, hcAZ⟩
    unfold uniaz_decrypt
    rw [if_neg ?hc]
    case hc =>
      intro hall
      rw [List.all_eq_true] at hall
      have := hall c hcs
      simp only [Bool.and_eq_true, decide_eq_true_eq] at this
      exact hcAZ (AZ_mem.mpr this)
  · intro hwf
    have hall : s.all (fun c => 97 ≤ c && c ≤ 122) = true := by
      rw [List.all_eq_true]
      intro c hc
      have := AZ_mem.mp (hwf c hc)
      simp only [Bool.and_eq_true, decide_eq_true_eq]
      omega
    obtain ⟨d, hd, _, _⟩ := decrypt_iter_wf AZ_ne AZ_bound 2 s hwf
    obtain ⟨r, hr, hrne⟩ := uniaz_decode_branch d
    refine ⟨r, ?_, hrne⟩
    unfold uniaz_decrypt
    rw [if_pos hall, hd]
    exact hr

/-- Witness for C8: the digit "0" is rejected as `InvalidCipherText`, while
the all-alphabet string "a" produces a non-`InvalidCipherText` result. -/
theorem C8_decrypt_rejects_witness :
    uniaz_decrypt [48] = some (Except.error DecryptError.InvalidCipherText) ∧
    ∃ r, uniaz_decrypt [97] = some r ∧
      r ≠ Except.error DecryptError.InvalidCipherText :=
  ⟨(C8_decrypt_rejects (s := [48])).1 ⟨48, by decide, by decide⟩,
   (C8_decrypt_rejects (s := [97])).2 (by decide)⟩

/-- Claim C9: an alphabet with a duplicated symbol (all symbols in the byte
domain) is accepted by construction without rejection, and the
symbol-to-value lookup maps the duplicated symbol to the largest
(last-occurring) index at which it appears. -/
theorem C9_duplicate_alphabet {A : List Nat} {c : Nat} (hne : A ≠ [])
    (hb : ∀ x ∈ A, x < 256) (hdup : 2 ≤ A.count c) :
    cipher_new A = some A ∧
    ∃ i, char_to_val A c = some i ∧ A[i]? = some c ∧
      ∀ j, A[j]? = some c → j ≤ i := by
  have hc : c ∈ A := by
    by_contra hnc
    rw [List.count_eq_zero_of_not_mem hnc] at hdup
    omega
  constructor
  · unfold cipher_new
    rw [if_neg (fun h => hne (List.length_eq_zero.mp h)), if_pos ?hall]
    case hall =>
      rw [List.all_eq_true]
      intro x hx
      simpa using hb x hx
  · obtain ⟨i, hi⟩ := lastIdx_mem hc
    refine ⟨i, ?_, lastIdx_getElem hi, lastIdx_le hi⟩
    unfold char_to_val
    rw [if_neg (by have := hb c hc; omega), valMapFun_eq, hi]

/-- Witness for C9 at alphabet "aba", duplicated symbol "a" (mapped to
index 2, its last occurrence). -/
theorem C9_duplicate_alphabet_witness :
    cipher_new [97, 98, 97] = some [97, 98, 97] ∧
    ∃ i, char_to_val [97, 98, 97] 97 = some i ∧
      ([97, 98, 97] : List Nat)[i]? = some 97 ∧
      ∀ j, ([97, 98, 97] : List Nat)[j]? = some 97 → j ≤ i :=
  C9_duplicate_alphabet (by decide) (by decide) (by decide)

/-- Claim C10: `UniAz::decrypt` is total on arbitrary input — it always
returns `Ok` or one of the three typed errors and never panics (the model's
outer `none`), because the `InvalidCipherText` pre-check guarantees every
character reaching the backward pass is a lowercase Latin letter. -/
theorem C10_decrypt_total (s : List Nat) : ∃ r, uniaz_decrypt s = some r := by
  by_cases hall : s.all (fun c => 97 ≤ c && c ≤ 122) = true
  · have hwf : ∀ c ∈ s, c ∈ AZ := by
      intro c hc
      have := List.all_eq_true.mp hall c hc
      simp only [Bool.and_eq_true, decide_eq_true_eq] at this
      exact AZ_mem.mpr this
    obtain ⟨d, hd, _, _⟩ := decrypt_iter_wf AZ_ne AZ_bound 2 s hwf
    obtain ⟨r, hr, _⟩ := uniaz_decode_branch d
    refine ⟨r, ?_⟩
    unfold uniaz_decrypt
    rw [if_pos hall, hd]
    exact hr
  · refine ⟨Except.error DecryptError.InvalidCipherText, ?_⟩
    unfold uniaz_decrypt
    rw [if_neg hall]

end UniAZ





